/-
Verification of the review-edit feedback loop of the ai-academician pipeline.

This file gives a shallow embedding, in Lean 4, of the data model and the
operations of the review-edit loop (src/models/paper.py, src/models/review.py,
src/agents/reviewer.py, src/agents/editor.py, and the loop controller in
src/orchestrator.py), and proves the specified properties about them.

Modelling conventions:
* Python strings are Lean `String`s; `str.strip()`, `str.split()`,
  `str.replace`, slicing and the `in` substring test are embedded as the
  `py*` helpers below.
* The language-model backend is an external collaborator.  Each agent call
  that sends a prompt and scrapes the free-text response is modelled by an
  oracle function receiving exactly the data that the prompt interpolates
  (section kind, truncated content, cycle number, issue list) and returning
  the response text.  The deterministic post-processing of the response is
  embedded verbatim.
* Python mutates `ReviewIssue` objects in place through shared references.
  The embedding is pure: an operation that mutates issues returns the
  feedback's issue list rebuilt with the same field updates applied to the
  same issues (group membership is a function of the issue's own fields,
  so the rebuild is extensionally identical to the in-place mutation).
* `uuid4` identities are modelled as opaque `Nat` tags and wall-clock
  timestamps (`created_at`, `updated_at`) are not modelled; no claim
  mentions them.
-/
import Mathlib

namespace Academician

/-! ## Python string primitives -/

/-- Characters treated as whitespace by Python's `str.strip()` / `str.split()`. -/
def isPySpace (c : Char) : Bool :=
  c == ' ' || c == '\t' || c == '\n' || c == '\r' || c == '\x0b' || c == '\x0c'

/-- Python `str.strip()`: drop leading and trailing whitespace. -/
def pyStrip (s : String) : String :=
  String.mk (((s.data.dropWhile isPySpace).reverse.dropWhile isPySpace).reverse)

/-- Number of words of Python `len(s.split())`: the number of maximal runs of
non-whitespace characters. -/
def wordCountAux : List Char → Bool → Nat
  | [], _ => 0
  | c :: cs, inWord =>
    if isPySpace c then wordCountAux cs false
    else (if inWord then 0 else 1) + wordCountAux cs true

/-- Python `len(s.split())`. -/
def pyWordCount (s : String) : Nat := wordCountAux s.data false

/-- Python substring test `needle in hay`. -/
def pyContains (hay needle : String) : Bool :=
  (List.range (hay.data.length + 1)).any fun k => needle.data.isPrefixOf (hay.data.drop k)

/-- Python slicing `s[:n]` (by code point, like Lean's `String.take`, but
defined structurally on the character list). -/
def pyTake (n : Nat) (s : String) : String := String.mk (s.data.take n)

/-- Python `s.startswith(pre)`. -/
def pyStartsWith (s pre : String) : Bool := pre.data.isPrefixOf s.data

/-- Splitting on a single newline, keeping empty parts:
Python `s.split("\n")`. -/
def splitNl : List Char → List (List Char)
  | [] => [[]]
  | c :: cs =>
    if c == '\n' then [] :: splitNl cs
    else
      match splitNl cs with
      | [] => [[c]]
      | w :: ws => (c :: w) :: ws

/-- Python `s.split("\n")`. -/
def pySplitLines (s : String) : List String := (splitNl s.data).map String.mk

/-- Remove every non-overlapping occurrence of `pat` left to right, skipping
`skip` further characters of a match already consumed. -/
def removeAllAux (pat : List Char) : List Char → Nat → List Char
  | [], _ => []
  | c :: cs, skip =>
    match skip with
    | n + 1 => removeAllAux pat cs n
    | 0 =>
      if pat.isPrefixOf (c :: cs) then removeAllAux pat cs (pat.length - 1)
      else c :: removeAllAux pat cs 0

/-- Python `s.replace(pat, "")` (the only replacement the agents perform). -/
def pyReplace (s pat : String) : String :=
  if pat == "" then s else String.mk (removeAllAux pat.data s.data 0)

theorem pyContains_empty_needle (hay : String) : pyContains hay "" = true := by
  unfold pyContains
  rw [List.any_eq_true]
  have hd : "".data = ([] : List Char) := rfl
  exact ⟨0, List.mem_range.mpr (Nat.succ_pos _), by simp [hd]⟩

theorem pyContains_empty_hay (needle : String) (h : needle ≠ "") :
    pyContains "" needle = false := by
  have hd : needle.data ≠ [] := fun hnil => h (by cases needle; simp_all)
  cases hne : needle.data with
  | nil => exact absurd hne hd
  | cons c cs => simp [pyContains, List.isPrefixOf, hne]

/-! ## Data model: paper (src/models/paper.py) -/

/-- `SectionType` enumeration, in class-definition order. -/
inductive SectionType where
  | abstract
  | introduction
  | literature_review
  | theoretical_framework
  | methodology
  | analysis
  | discussion
  | conclusion
  | references
  deriving DecidableEq

/-- The `str` value of each `SectionType` member. -/
def SectionType.value : SectionType → String
  | .abstract => "abstract"
  | .introduction => "introduction"
  | .literature_review => "literature_review"
  | .theoretical_framework => "theoretical_framework"
  | .methodology => "methodology"
  | .analysis => "analysis"
  | .discussion => "discussion"
  | .conclusion => "conclusion"
  | .references => "references"

/-- Iteration order of `for section_type in SectionType`. -/
def SectionType.all : List SectionType :=
  [.abstract, .introduction, .literature_review, .theoretical_framework,
   .methodology, .analysis, .discussion, .conclusion, .references]

/-- The `SectionType(s)` constructor call: `some` on a member value,
`none` where Python raises `ValueError`. -/
def SectionType.fromString? (s : String) : Option SectionType :=
  if s == "abstract" then some .abstract
  else if s == "introduction" then some .introduction
  else if s == "literature_review" then some .literature_review
  else if s == "theoretical_framework" then some .theoretical_framework
  else if s == "methodology" then some .methodology
  else if s == "analysis" then some .analysis
  else if s == "discussion" then some .discussion
  else if s == "conclusion" then some .conclusion
  else if s == "references" then some .references
  else none

theorem fromString?_value (st : SectionType) :
    SectionType.fromString? st.value = some st := by
  cases st <;> rfl

theorem fromString?_eq_value {s : String} {t : SectionType}
    (h : SectionType.fromString? s = some t) : s = t.value := by
  unfold SectionType.fromString? at h
  repeat' split at h
  all_goals cases h
  all_goals simp_all [SectionType.value]

theorem fromString?_inj {s₁ s₂ : String} {t : SectionType}
    (h₁ : SectionType.fromString? s₁ = some t)
    (h₂ : SectionType.fromString? s₂ = some t) : s₁ = s₂ :=
  (fromString?_eq_value h₁).trans (fromString?_eq_value h₂).symm

inductive DraftStatus where
  | draft
  | in_review
  | approved
  deriving DecidableEq

/-- Lookup in a Python `dict[str, str]` (insertion-ordered association list)
with default `""`, as in `self.sections.get(section_type.value, "")`. -/
def dictGet (d : List (String × String)) (k : String) : String :=
  match d.find? (fun p => p.1 == k) with
  | some p => p.2
  | none => ""

/-- Python `d[k] = v`: replace in place if the key exists, else append. -/
def dictSet (d : List (String × String)) (k v : String) : List (String × String) :=
  if d.any (fun p => p.1 == k) then d.map (fun p => if p.1 == k then (k, v) else p)
  else d ++ [(k, v)]

/-- `PaperDraft` (timestamps omitted, uuid as `Nat`). -/
structure PaperDraft where
  id : Nat := 0
  version : Nat := 1
  sections : List (String × String) := []
  word_count : Nat := 0
  status : DraftStatus := .draft
  review_cycle : Nat := 0
  deriving DecidableEq

def PaperDraft.get_section (d : PaperDraft) (st : SectionType) : String :=
  dictGet d.sections st.value

/-- `_update_word_count`: `sum(len(content.split()) for content in self.sections.values())`. -/
def totalWordCount (sections : List (String × String)) : Nat :=
  (sections.map (fun p => pyWordCount p.2)).sum

/-- `set_section`: write the content, then recompute the word count. -/
def PaperDraft.set_section (d : PaperDraft) (st : SectionType) (content : String) :
    PaperDraft :=
  let sections := dictSet d.sections st.value content
  { d with sections := sections, word_count := totalWordCount sections }

/-! ## Data model: review (src/models/review.py) -/

inductive IssueType where
  | missing_citation
  | inconsistency
  | vague_claim
  | format_error
  | style_issue
  | grammar_error
  | logic_error
  | incomplete_argument
  deriving DecidableEq

inductive IssueSeverity where
  | critical
  | major
  | minor
  deriving DecidableEq

/-- `IssueLocation` (field `section` renamed `sectionName`: `section` is a
Lean keyword). -/
structure IssueLocation where
  sectionName : String
  paragraph : Nat := 0
  text_excerpt : String := ""
  deriving DecidableEq

structure ReviewIssue where
  id : Nat := 0
  issue_type : IssueType := .vague_claim
  severity : IssueSeverity := .minor
  location : IssueLocation := { sectionName := "" }
  description : String := ""
  suggested_fix : String := ""
  resolved : Bool := false
  deriving DecidableEq

structure ReviewFeedback where
  id : Nat := 0
  draft_id : Nat := 0
  cycle : Nat := 1
  issues : List ReviewIssue := []
  overall_assessment : String := ""
  approved : Bool := false
  deriving DecidableEq

def ReviewFeedback.get_unresolved_issues (fb : ReviewFeedback) : List ReviewIssue :=
  fb.issues.filter (fun i => !i.resolved)

/-- `has_critical_issues`: any unresolved critical issue. -/
def ReviewFeedback.has_critical_issues (fb : ReviewFeedback) : Bool :=
  fb.issues.any (fun i => i.severity == .critical && !i.resolved)

/-! ## Reviewer agent (src/agents/reviewer.py) -/

/-- The `current_issue` dict accumulated by `_review_section`'s line scanner.
Each field is `some` exactly when the corresponding dict key has been set;
the dict is truthy iff some key is set. -/
structure CurIssue where
  category : Option String := none
  severity : Option String := none
  location : Option String := none
  description : Option String := none
  suggestion : Option String := none
  deriving DecidableEq

def CurIssue.isEmpty (c : CurIssue) : Bool :=
  c.category.isNone && c.severity.isNone && c.location.isNone &&
  c.description.isNone && c.suggestion.isNone

/-- `category_map.get(category, IssueType.VAGUE_CLAIM)`. -/
def categoryMapGet (s : String) : IssueType :=
  if s == "MISSING_CITATION" then .missing_citation
  else if s == "INCONSISTENCY" then .inconsistency
  else if s == "VAGUE_CLAIM" then .vague_claim
  else if s == "FORMAT_ERROR" then .format_error
  else if s == "STYLE_ISSUE" then .style_issue
  else if s == "GRAMMAR_ERROR" then .grammar_error
  else if s == "LOGIC_ERROR" then .logic_error
  else if s == "INCOMPLETE_ARGUMENT" then .incomplete_argument
  else .vague_claim

/-- `severity_map.get(severity, IssueSeverity.MINOR)`. -/
def severityMapGet (s : String) : IssueSeverity :=
  if s == "CRITICAL" then .critical
  else if s == "MAJOR" then .major
  else if s == "MINOR" then .minor
  else .minor

/-- `_create_issue(data, section_type)`. -/
def createIssue (data : CurIssue) (st : SectionType) : ReviewIssue :=
  { issue_type := categoryMapGet (data.category.getD "")
    severity := severityMapGet (data.severity.getD "MINOR")
    location := { sectionName := st.value, text_excerpt := data.location.getD "" }
    description := data.description.getD ""
    suggested_fix := data.suggestion.getD "" }

/-- The line scanner of `_review_section`: strip each line (`line =
line.strip()`, inlined below), start a fresh block on `ISSUE:`, record the
other four markers into the current block, emit the pending block when a
new one starts and once at end of input. -/
def scanIssueLines (st : SectionType) : List String → CurIssue → List ReviewIssue
  | [], cur => if cur.isEmpty then [] else [createIssue cur st]
  | rawLine :: rest, cur =>
    if pyStartsWith (pyStrip rawLine) "ISSUE:" then
      (if cur.isEmpty then [] else [createIssue cur st]) ++
        scanIssueLines st rest
          { category := some (pyStrip (pyReplace (pyStrip rawLine) "ISSUE:")) }
    else if pyStartsWith (pyStrip rawLine) "SEVERITY:" then
      scanIssueLines st rest
        { cur with severity := some (pyStrip (pyReplace (pyStrip rawLine) "SEVERITY:")) }
    else if pyStartsWith (pyStrip rawLine) "LOCATION:" then
      scanIssueLines st rest
        { cur with location := some (pyStrip (pyReplace (pyStrip rawLine) "LOCATION:")) }
    else if pyStartsWith (pyStrip rawLine) "DESCRIPTION:" then
      scanIssueLines st rest
        { cur with description := some (pyStrip (pyReplace (pyStrip rawLine) "DESCRIPTION:")) }
    else if pyStartsWith (pyStrip rawLine) "SUGGESTION:" then
      scanIssueLines st rest
        { cur with suggestion := some (pyStrip (pyReplace (pyStrip rawLine) "SUGGESTION:")) }
    else
      scanIssueLines st rest cur

/-- Response post-processing of `_review_section`: a response containing
`NO_ISSUES` yields no issues, otherwise the line scanner runs on the
response's lines starting from an empty block. -/
def reviewSectionIssues (response : String) (st : SectionType) : List ReviewIssue :=
  if pyContains response "NO_ISSUES" then []
  else scanIssueLines st (pySplitLines response) {}

/-- Response post-processing of `_check_consistency`: each line starting with
`INCONSISTENCY:` becomes a Major inconsistency issue at the synthetic
`cross-section` location, provided the marker occurs in the response. -/
def consistencyIssues (response : String) : List ReviewIssue :=
  if pyContains response "INCONSISTENCY:" then
    (pySplitLines response).filterMap fun line =>
      if pyStartsWith line "INCONSISTENCY:" then
        some { issue_type := .inconsistency
               severity := .major
               location := { sectionName := "cross-section" }
               description := pyStrip (pyReplace line "INCONSISTENCY:") }
      else none
  else []

/-- `_generate_assessment` (a pure function of the issue counts and cycle). -/
def generateAssessment (issues : List ReviewIssue) (cycle : Nat) : String :=
  let critical := (issues.filter (fun i => i.severity == .critical)).length
  let major := (issues.filter (fun i => i.severity == .major)).length
  let minor := (issues.filter (fun i => i.severity == .minor)).length
  let total := issues.length
  let assessment :=
    s!"Review Cycle {cycle} Assessment:\n\nTotal Issues Found: {total}\n- Critical: {critical}\n- Major: {major}\n- Minor: {minor}\n\n"
  if cycle == 1 then
    assessment ++ "This is the first review cycle. The paper requires revisions before it can be approved. "
  else if critical > 0 then
    assessment ++ "The paper has critical issues that must be addressed before approval. "
  else if major > 0 then
    assessment ++ "The paper has major issues that should be addressed. "
  else
    assessment ++ "The paper is nearing publication readiness with only minor issues remaining. "

/-- The language-model collaborator as seen by the reviewer.  Each function
receives exactly the varying data interpolated into the corresponding
prompt and returns the free-text response. -/
structure ReviewOracle where
  sectionResp : SectionType → String → Nat → String
  consistencyResp : String → String → String → String

/-- Result of a reviewer action (`AgentResult` with `data["feedback"]` and
the draft the action mutated). -/
structure ReviewResult where
  success : Bool
  feedback : ReviewFeedback
  draft : PaperDraft
  deriving DecidableEq

/-- `_review(draft, cycle)`: review every populated section in enum order,
run the cross-section consistency pass, generate the assessment, and decide
approval (never on a cycle below 2; otherwise exactly when no unresolved
critical or major issue exists).  Side effect: `draft.review_cycle = cycle`. -/
def review (ro : ReviewOracle) (draft : PaperDraft) (cycle : Nat) : ReviewResult :=
  let sectionIssues := SectionType.all.foldl
    (fun acc st =>
      let content := draft.get_section st
      if content = "" then acc
      else acc ++ reviewSectionIssues (ro.sectionResp st (pyTake 5000 content) cycle) st)
    []
  let consResponse := ro.consistencyResp (draft.get_section .abstract)
    (pyTake 1000 (draft.get_section .introduction))
    (pyTake 1000 (draft.get_section .conclusion))
  let issues := sectionIssues ++ consistencyIssues consResponse
  let assessment := generateAssessment issues cycle
  let approved :=
    if cycle < 2 then false
    else
      (issues.filter
        (fun i => (i.severity == .critical || i.severity == .major) && !i.resolved)).length == 0
  { success := true
    feedback :=
      { draft_id := draft.id, cycle := cycle, issues := issues,
        overall_assessment := assessment, approved := approved }
    draft := { draft with review_cycle := cycle } }

/-- Content of the section an issue points at, as read by
`_check_resolved_issues`: the draft's section when the recorded name is a
valid `SectionType` value, the empty string otherwise. -/
def issueSectionContent (draft : PaperDraft) (i : ReviewIssue) : String :=
  match SectionType.fromString? i.location.sectionName with
  | some st => draft.get_section st
  | none => ""

/-- The per-issue body of `_check_resolved_issues`:
`if issue.location.text_excerpt and issue.location.text_excerpt not in
section_content: issue.resolved = True`. -/
def checkIssue (draft : PaperDraft) (issue : ReviewIssue) : ReviewIssue :=
  if !(issue.location.text_excerpt == "")
      && !(pyContains (issueSectionContent draft issue) issue.location.text_excerpt) then
    { issue with resolved := true }
  else issue

/-- `_check_resolved_issues(draft, previous_feedback)`: flag an issue
resolved when its recorded excerpt is non-empty and no longer occurs
verbatim in the section's current content. -/
def check_resolved_issues (draft : PaperDraft) (previous : ReviewFeedback) :
    ReviewFeedback :=
  { previous with issues := previous.issues.map (checkIssue draft) }

/-- `_final_review(draft, cycle)`: re-run the full review, then flip
`approved` to `true` when no unresolved critical issue exists and the
cycle is at least 2. -/
def final_review (ro : ReviewOracle) (draft : PaperDraft) (cycle : Nat) : ReviewResult :=
  let r := review ro draft cycle
  if r.success then
    if !r.feedback.has_critical_issues && decide (2 ≤ cycle) then
      { r with feedback :=
          { r.feedback with
            approved := true
            overall_assessment :=
              r.feedback.overall_assessment ++ "\n\nFINAL REVIEW: Paper approved for finalization." } }
    else r
  else r

/-! ## Editor agent (src/agents/editor.py) -/

/-- The severity sort key of `_apply_all_fixes`:
`{CRITICAL: 0, MAJOR: 1, MINOR: 2}.get(x.severity, 3)`.  The severity
enumeration is closed, so the default `3` is unreachable. -/
def severityRank : IssueSeverity → Nat
  | .critical => 0
  | .major => 1
  | .minor => 2

def severityKey (i : ReviewIssue) : Nat := severityRank i.severity

/-- `section_issues.sort(key=...)`: Python's stable sort by the severity key,
modelled as insertion sort (which is stable for the reflexive order on the
key). -/
def sortIssuesBySeverity (l : List ReviewIssue) : List ReviewIssue :=
  List.insertionSort (fun a b => severityKey a ≤ severityKey b) l

/-- One step of the `issues_by_section` dict build: append the issue to the
section's bucket, creating the bucket on first sight of the key. -/
def addToGroup (groups : List (String × List ReviewIssue)) (s : String)
    (i : ReviewIssue) : List (String × List ReviewIssue) :=
  if groups.any (fun g => g.1 == s) then
    groups.map (fun g => if g.1 == s then (g.1, g.2 ++ [i]) else g)
  else groups ++ [(s, [i])]

/-- The `issues_by_section` dict of `_apply_all_fixes`: the unresolved issues
grouped by their section string, keys in first-occurrence order, each bucket
in feedback order. -/
def issuesBySection (issues : List ReviewIssue) : List (String × List ReviewIssue) :=
  issues.foldl
    (fun gs i => if i.resolved then gs else addToGroup gs i.location.sectionName i) []

/-- The language-model collaborator as seen by the editor: the rewrite
response for a section, given the ordered issue list and current content
that the rewrite prompt interpolates. -/
structure EditOracle where
  rewrite : SectionType → List ReviewIssue → String → String

/-- The per-section loop of `_apply_all_fixes` over the grouped dict:
an unknown section name is logged and skipped, an empty section makes
`_edit_section` fail without aborting the batch, and otherwise the section
is replaced by the rewrite response.  Returns the final draft, the
`sections_edited` list and `total_issues_fixed`. -/
def processGroups (eo : EditOracle) :
    List (String × List ReviewIssue) → PaperDraft → PaperDraft × List String × Nat
  | [], d => (d, [], 0)
  | (s, issues) :: rest, d =>
    match SectionType.fromString? s with
    | none => processGroups eo rest d
    | some st =>
      let content := d.get_section st
      if content = "" then processGroups eo rest d
      else
        let d1 := d.set_section st (eo.rewrite st issues content)
        let r := processGroups eo rest d1
        (r.1, s :: r.2.1, r.2.2 + issues.length)

/-- Result of `_apply_all_fixes` (`AgentResult` with `data["draft"]` and the
feedback's issue list after the in-place resolution marking). -/
structure EditBatchResult where
  success : Bool
  draft : PaperDraft
  issues : List ReviewIssue
  sections_edited : List String
  issues_fixed : Nat
  deriving DecidableEq

/-- `_apply_all_fixes(draft, feedback)`: group the unresolved issues by
section, sort each group severity-first (stable), rewrite each known
non-empty section, mark every issue of a successfully rewritten group
resolved, and increment the draft version by one.  Python marks the shared
issue objects in place; the pure embedding rebuilds the feedback's issue
list, marking exactly the unresolved issues whose section was successfully
edited (group membership is determined by those same fields). -/
def apply_all_fixes (eo : EditOracle) (draft : PaperDraft) (feedback : ReviewFeedback) :
    EditBatchResult :=
  let grouped := (issuesBySection feedback.issues).map
    (fun g => (g.1, sortIssuesBySeverity g.2))
  let r := processGroups eo grouped draft
  let sectionsEdited := r.2.1
  let issues' := feedback.issues.map fun i =>
    if !i.resolved && sectionsEdited.contains i.location.sectionName then
      { i with resolved := true }
    else i
  { success := true
    draft := { r.1 with version := r.1.version + 1 }
    issues := issues'
    sections_edited := sectionsEdited
    issues_fixed := r.2.2 }

/-! ## Review-edit loop controller (src/orchestrator.py, `_stage_review_edit_loop`) -/

/-- Observable events of one loop run: each `Reviewer.review` call with the
feedback it returned, and each `Editor.apply_all_fixes` call with the draft
and (mutated) feedback it left behind. -/
inductive LoopEvent where
  | review (cycle : Nat) (fb : ReviewFeedback)
  | edit (cycle : Nat) (draft : PaperDraft) (fb : ReviewFeedback)
  deriving DecidableEq

/-- The cycle number of a review event, if any. -/
def reviewCycleOf : LoopEvent → Option Nat
  | .review c _ => some c
  | _ => none

/-- The feedback retained in the orchestrator state after an edit pass: the
same feedback object whose issue list the editor mutated in place. -/
def editedFeedback (fb1 : ReviewFeedback) (e : EditBatchResult) : ReviewFeedback :=
  { fb1 with issues := e.issues }

theorem editedFeedback_approved (fb1 : ReviewFeedback) (e : EditBatchResult) :
    (editedFeedback fb1 e).approved = fb1.approved := rfl

/-- The body of `for cycle in range(1, max_cycles + 1)`, with the remaining
iteration count as fuel.  State threaded exactly as the orchestrator does:
`self._state.draft` and `self._state.feedback`. -/
def loopAux (ro : ReviewOracle) (eo : EditOracle) (minCycles : Nat) :
    Nat → Nat → PaperDraft → Option ReviewFeedback →
    PaperDraft × Option ReviewFeedback × List LoopEvent
  | 0, _, d, fb => (d, fb, [])
  | fuel + 1, cycle, d, fb =>
    let r := review ro d cycle
    if r.success then
      let fb1 := r.feedback
      let d1 := r.draft
      if fb1.approved && decide (minCycles ≤ cycle) then
        (d1, some fb1, [.review cycle fb1])
      else
        let e := apply_all_fixes eo d1 fb1
        if e.success then
          let fb2 := editedFeedback fb1 e
          let rest := loopAux ro eo minCycles fuel (cycle + 1) e.draft (some fb2)
          (rest.1, rest.2.1, .review cycle fb1 :: .edit cycle e.draft fb2 :: rest.2.2)
        else
          let rest := loopAux ro eo minCycles fuel (cycle + 1) d1 (some fb1)
          (rest.1, rest.2.1, .review cycle fb1 :: rest.2.2)
    else
      let rest := loopAux ro eo minCycles fuel (cycle + 1) d fb
      (rest.1, rest.2.1, rest.2.2)

/-- Outcome of `_stage_review_edit_loop`. -/
structure LoopOutcome where
  draft : PaperDraft
  feedback : Option ReviewFeedback
  events : List LoopEvent
  /-- Whether the trailing `logger.warning` fired (`not feedback or not
  feedback.approved` after the loop). -/
  warned : Bool

/-- `_stage_review_edit_loop`: run up to `maxCycles` review/edit cycles
starting from cycle 1 with no feedback yet, then warn when the retained
feedback is missing or unapproved. -/
def reviewEditLoop (ro : ReviewOracle) (eo : EditOracle)
    (minCycles maxCycles : Nat) (draft : PaperDraft) : LoopOutcome :=
  let r := loopAux ro eo minCycles maxCycles 1 draft none
  { draft := r.1
    feedback := r.2.1
    events := r.2.2
    warned :=
      match r.2.1 with
      | none => true
      | some fb => !fb.approved }

/-! ## Basic facts about the embedded operations -/

theorem review_success (ro : ReviewOracle) (d : PaperDraft) (c : Nat) :
    (review ro d c).success = true := rfl

theorem apply_all_fixes_success (eo : EditOracle) (d : PaperDraft) (fb : ReviewFeedback) :
    (apply_all_fixes eo d fb).success = true := rfl

/-- The approval flag computed by `_review`, as a function of the issue list. -/
theorem review_approved_eq (ro : ReviewOracle) (d : PaperDraft) (c : Nat) :
    (review ro d c).feedback.approved =
      (if c < 2 then false
       else ((review ro d c).feedback.issues.filter
          (fun i => (i.severity == .critical || i.severity == .major) && !i.resolved)).length == 0) :=
  rfl

/-- The critical-or-major-and-unresolved test, in `Prop` form. -/
theorem critical_major_pred_iff (i : ReviewIssue) :
    (((i.severity == IssueSeverity.critical || i.severity == IssueSeverity.major)
        && !i.resolved) = true ↔
      ((i.severity = .critical ∨ i.severity = .major) ∧ i.resolved = false)) := by
  cases hr : i.resolved <;> simp [hr]

/-- Emptiness of the critical-or-major unresolved filter, in `Prop` form. -/
theorem filter_critical_major_iff (issues : List ReviewIssue) :
    (((issues.filter
        (fun i => (i.severity == .critical || i.severity == .major) && !i.resolved)).length == 0) = true ↔
      ∀ i ∈ issues, ¬((i.severity = .critical ∨ i.severity = .major) ∧ i.resolved = false)) := by
  rw [beq_iff_eq, List.length_eq_zero, List.filter_eq_nil_iff]
  exact forall₂_congr fun i _ => not_congr (critical_major_pred_iff i)

/-- The critical-and-unresolved test, in `Prop` form. -/
theorem critical_pred_iff (i : ReviewIssue) :
    ((i.severity == IssueSeverity.critical && !i.resolved) = true ↔
      (i.severity = .critical ∧ i.resolved = false)) := by
  cases hr : i.resolved <;> simp [hr]

/-- `has_critical_issues` is false exactly when no unresolved critical issue
exists, in `Prop` form. -/
theorem has_critical_issues_false_iff (fb : ReviewFeedback) :
    (fb.has_critical_issues = false ↔
      ∀ i ∈ fb.issues, ¬(i.severity = .critical ∧ i.resolved = false)) := by
  rw [ReviewFeedback.has_critical_issues, List.any_eq_false]
  exact forall₂_congr fun i _ => not_congr (critical_pred_iff i)

/-! ## Witness fixtures: concrete oracles, drafts and feedback -/

/-- A collaborator that reports no issues and consistent sections. -/
def oracleNoIssues : ReviewOracle :=
  { sectionResp := fun _ _ _ => "NO_ISSUES: This section meets quality standards."
    consistencyResp := fun _ _ _ => "CONSISTENT: Sections are aligned." }

/-- A collaborator that always reports one cross-section inconsistency. -/
def oracleIncons : ReviewOracle :=
  { sectionResp := fun _ _ _ => "NO_ISSUES: This section meets quality standards."
    consistencyResp := fun _ _ _ => "INCONSISTENCY: abstract and conclusion disagree" }

/-- A collaborator that reports one major issue in every populated section. -/
def oracleMajor : ReviewOracle :=
  { sectionResp := fun _ _ _ =>
      "ISSUE: VAGUE_CLAIM\nSEVERITY: MAJOR\nLOCATION: here\nDESCRIPTION: vague\nSUGGESTION: clarify"
    consistencyResp := fun _ _ _ => "CONSISTENT: Sections are aligned." }

/-- A rewrite collaborator that appends a marker to the section content. -/
def eoFix : EditOracle := { rewrite := fun _ _ content => content ++ " [edited]" }

/-- A draft with one populated section. -/
def draftIntro : PaperDraft :=
  { sections := [("introduction", "alpha beta")], word_count := 2 }

/-! ## C1: review approval policy -/

/-- C1: for every draft and cycle number `c`, the feedback returned by
`Reviewer.review(draft, c)` has `approved = false` whenever `c < 2`, even
when no issues were found; and for `c >= 2`, `approved` is true iff no
issue in the feedback has severity critical or major while being
unresolved. -/
theorem claim_C1 (ro : ReviewOracle) (draft : PaperDraft) (c : Nat) :
    (c < 2 → (review ro draft c).feedback.approved = false) ∧
    (2 ≤ c →
      ((review ro draft c).feedback.approved = true ↔
        ∀ i ∈ (review ro draft c).feedback.issues,
          ¬((i.severity = .critical ∨ i.severity = .major) ∧ i.resolved = false))) := by
  constructor
  · intro h
    rw [review_approved_eq, if_pos h]
  · intro h
    rw [review_approved_eq, if_neg (Nat.not_lt.mpr h)]
    exact filter_critical_major_iff _

theorem claim_C1_witness :
    (review oracleNoIssues draftIntro 1).feedback.approved = false ∧
    (review oracleNoIssues draftIntro 2).feedback.approved = true := by
  refine ⟨(claim_C1 oracleNoIssues draftIntro 1).1 (by decide), ?_⟩
  exact ((claim_C1 oracleNoIssues draftIntro 2).2 (by decide)).mpr (by decide)

/-! ## C3: final review relaxes the approval bar -/

/-- The final review reviews the same issues as the standard review. -/
theorem final_review_issues (ro : ReviewOracle) (d : PaperDraft) (c : Nat) :
    (final_review ro d c).feedback.issues = (review ro d c).feedback.issues := by
  rw [final_review]
  split
  · split <;> rfl
  · rfl

/-- The approval flag of the final review, as a function of the standard
review's feedback. -/
theorem final_review_approved (ro : ReviewOracle) (d : PaperDraft) (c : Nat) :
    (final_review ro d c).feedback.approved =
      ((!(review ro d c).feedback.has_critical_issues && decide (2 ≤ c))
        || (review ro d c).feedback.approved) := by
  rw [final_review]
  rw [if_pos (review_success ro d c)]
  split
  · rename_i hc
    simp [hc]
  · rename_i hc
    rw [Bool.not_eq_true] at hc
    simp [hc]

/-- C3: final review at cycle `c` approves exactly when `c >= 2` and the
produced feedback contains no unresolved critical issue, independent of
major and minor counts; hence final-review approval is weaker than standard
review approval: any standard approval at `c >= 2` is also a final-review
approval. -/
theorem claim_C3 (ro : ReviewOracle) (d : PaperDraft) (c : Nat) :
    ((final_review ro d c).feedback.approved = true ↔
      (2 ≤ c ∧ ∀ i ∈ (review ro d c).feedback.issues,
        ¬(i.severity = .critical ∧ i.resolved = false))) ∧
    (2 ≤ c → (review ro d c).feedback.approved = true →
      (final_review ro d c).feedback.approved = true) := by
  have hfa := final_review_approved ro d c
  constructor
  · rw [hfa]
    by_cases h2 : 2 ≤ c
    · simp only [decide_eq_true h2, Bool.and_true, Bool.or_eq_true, Bool.not_eq_true']
      constructor
      · rintro (hci | happ)
        · exact ⟨h2, (has_critical_issues_false_iff _).mp hci⟩
        · refine ⟨h2, ?_⟩
          rw [review_approved_eq, if_neg (Nat.not_lt.mpr h2)] at happ
          have hall := (filter_critical_major_iff _).mp happ
          intro i hi hcontra
          exact hall i hi ⟨Or.inl hcontra.1, hcontra.2⟩
      · rintro ⟨-, hall⟩
        exact Or.inl ((has_critical_issues_false_iff _).mpr hall)
    · have happ0 : (review ro d c).feedback.approved = false := by
        rw [review_approved_eq, if_pos (Nat.lt_of_not_le h2)]
      simp [h2, happ0]
  · intro _ happ
    rw [hfa, happ, Bool.or_true]

theorem claim_C3_witness :
    (final_review oracleMajor draftIntro 2).feedback.approved = true ∧
    (review oracleMajor draftIntro 2).feedback.approved = false :=
  ⟨((claim_C3 oracleMajor draftIntro 2).1).mpr ⟨by decide, by decide⟩, by decide⟩

/-! ## Dictionary lemmas for section writes -/

theorem dictGet_cons_pos {p : String × String} {l : List (String × String)} {k : String}
    (h : p.1 = k) : dictGet (p :: l) k = p.2 := by
  simp [dictGet, List.find?, h]

theorem dictGet_cons_neg {p : String × String} {l : List (String × String)} {k : String}
    (h : ¬p.1 = k) : dictGet (p :: l) k = dictGet l k := by
  simp [dictGet, List.find?, beq_eq_false_iff_ne.mpr h]

theorem dictGet_map_set {l : List (String × String)} {k : String} (v : String)
    (h : l.any (fun p => p.1 == k) = true) :
    dictGet (l.map (fun p => if p.1 == k then (k, v) else p)) k = v := by
  induction l with
  | nil => simp at h
  | cons p l ih =>
    rw [List.map_cons]
    by_cases hp : p.1 = k
    · rw [if_pos (beq_iff_eq.mpr hp)]
      exact dictGet_cons_pos rfl
    · rw [if_neg (by simp [hp])]
      rw [dictGet_cons_neg hp]
      rw [List.any_cons] at h
      simp only [beq_eq_false_iff_ne.mpr hp, Bool.false_or] at h
      exact ih h

theorem dictGet_append_single (l : List (String × String)) (k v : String)
    (h : l.any (fun p => p.1 == k) = false) :
    dictGet (l ++ [(k, v)]) k = v := by
  induction l with
  | nil => exact dictGet_cons_pos rfl
  | cons p l ih =>
    rw [List.any_cons, Bool.or_eq_false_iff] at h
    rw [List.cons_append, dictGet_cons_neg (by simpa using h.1)]
    exact ih h.2

theorem dictGet_dictSet_self (l : List (String × String)) (k v : String) :
    dictGet (dictSet l k v) k = v := by
  unfold dictSet
  split
  · exact dictGet_map_set v (by assumption)
  · rename_i hany
    exact dictGet_append_single l k v (Bool.eq_false_iff.mpr hany)

theorem dictGet_dictSet_ne (l : List (String × String)) {k k' : String} (v : String)
    (h : ¬k' = k) : dictGet (dictSet l k v) k' = dictGet l k' := by
  unfold dictSet
  split
  all_goals rename_i hany
  all_goals clear hany
  · induction l with
    | nil => rfl
    | cons p l ih =>
      rw [List.map_cons]
      by_cases hp : p.1 = k
      · rw [if_pos (beq_iff_eq.mpr hp)]
        rw [dictGet_cons_neg (fun hk => h hk.symm), dictGet_cons_neg (hp ▸ fun hk => h hk.symm)]
        exact ih
      · rw [if_neg (by simp [hp])]
        by_cases hp' : p.1 = k'
        · rw [dictGet_cons_pos hp', dictGet_cons_pos hp']
        · rw [dictGet_cons_neg hp', dictGet_cons_neg hp']
          exact ih
  · induction l with
    | nil => exact dictGet_cons_neg (fun hk => h hk.symm)
    | cons p l ih =>
      by_cases hp' : p.1 = k'
      · rw [List.cons_append, dictGet_cons_pos hp', dictGet_cons_pos hp']
      · rw [List.cons_append, dictGet_cons_neg hp', dictGet_cons_neg hp']
        exact ih

theorem SectionType.value_inj {st st' : SectionType} (h : st.value = st'.value) :
    st = st' := by
  have h1 := fromString?_value st
  rw [h, fromString?_value] at h1
  exact (Option.some.inj h1).symm

theorem get_section_set_section_self (d : PaperDraft) (st : SectionType) (c : String) :
    (d.set_section st c).get_section st = c :=
  dictGet_dictSet_self d.sections st.value c

theorem get_section_set_section_ne (d : PaperDraft) {st st' : SectionType} (c : String)
    (h : ¬st' = st) : (d.set_section st c).get_section st' = d.get_section st' :=
  dictGet_dictSet_ne d.sections c (fun hv => h (SectionType.value_inj hv))

theorem set_section_version (d : PaperDraft) (st : SectionType) (c : String) :
    (d.set_section st c).version = d.version := rfl

/-! ## C5: word count invariant -/

/-- C5: after every `set_section` mutation, the draft's word count equals
the sum over all sections of the number of whitespace-separated words of
that section's current content (recomputed, never stale — the incoming
`word_count` is arbitrary), and the written section really holds the new
content. -/
theorem claim_C5 (d : PaperDraft) (st : SectionType) (content : String) :
    (d.set_section st content).word_count =
      (((d.set_section st content).sections.map (fun p => pyWordCount p.2)).sum) ∧
    (d.set_section st content).get_section st = content :=
  ⟨rfl, get_section_set_section_self d st content⟩

/-! ## C7 and C10: the resolved-issue check -/

theorem map_getElem? {α β : Type} (f : α → β) (l : List α) (j : Nat) :
    (l.map f)[j]? = (l[j]?).map f := by
  induction l generalizing j with
  | nil => simp
  | cons a l ih => cases j <;> simp [ih]

/-- The resolved flag after `_check_resolved_issues`, in closed form: the
old flag, or the excerpt no longer occurring in the section content (an
empty excerpt always occurs). -/
theorem checkIssue_resolved (d : PaperDraft) (i : ReviewIssue) :
    (checkIssue d i).resolved =
      (i.resolved || !pyContains (issueSectionContent d i) i.location.text_excerpt) := by
  by_cases he : i.location.text_excerpt = ""
  · simp [checkIssue, he, pyContains_empty_needle]
  · have he' : (i.location.text_excerpt == "") = false := beq_eq_false_iff_ne.mpr he
    cases hc : pyContains (issueSectionContent d i) i.location.text_excerpt
    · simp [checkIssue, he', hc]
    · simp [checkIssue, he', hc]

/-- `_check_resolved_issues` changes nothing but the resolved flag. -/
theorem checkIssue_fields (d : PaperDraft) (i : ReviewIssue) :
    (checkIssue d i).issue_type = i.issue_type ∧
    (checkIssue d i).severity = i.severity ∧
    (checkIssue d i).location = i.location ∧
    (checkIssue d i).description = i.description ∧
    (checkIssue d i).suggested_fix = i.suggested_fix ∧
    (checkIssue d i).id = i.id := by
  unfold checkIssue
  split <;> simp

/-- C7 (amended): the check-resolved-issues operation sets an issue's
resolved flag to true when its recorded excerpt is no longer found verbatim
in the current content of the issue's section; every other issue keeps its
previous resolved flag (in particular an already-resolved issue stays
resolved even when its excerpt is still present), and no other field of
the feedback or of any issue is changed (the draft is not mutated at all). -/
theorem claim_C7 (d : PaperDraft) (fb : ReviewFeedback) :
    (check_resolved_issues d fb).cycle = fb.cycle ∧
    (check_resolved_issues d fb).approved = fb.approved ∧
    (check_resolved_issues d fb).overall_assessment = fb.overall_assessment ∧
    (check_resolved_issues d fb).draft_id = fb.draft_id ∧
    ∀ (j : Nat) (i : ReviewIssue), fb.issues[j]? = some i →
      ∃ i' : ReviewIssue, (check_resolved_issues d fb).issues[j]? = some i' ∧
        i'.resolved =
          (i.resolved || !pyContains (issueSectionContent d i) i.location.text_excerpt) ∧
        i'.issue_type = i.issue_type ∧ i'.severity = i.severity ∧
        i'.location = i.location ∧ i'.description = i.description ∧
        i'.suggested_fix = i.suggested_fix ∧ i'.id = i.id := by
  refine ⟨rfl, rfl, rfl, rfl, ?_⟩
  intro j i hj
  refine ⟨checkIssue d i, ?_, checkIssue_resolved d i, checkIssue_fields d i⟩
  show (fb.issues.map (checkIssue d))[j]? = some (checkIssue d i)
  rw [map_getElem?, hj, Option.map_some']

/-- A feedback whose single issue is already resolved while its excerpt is
still present in the draft. -/
def fbStillPresent : ReviewFeedback :=
  { issues := [{ severity := .minor,
                 location := { sectionName := "introduction", text_excerpt := "alpha" },
                 resolved := true }] }

/-- C7 counterexample: the claim says an issue whose excerpt is still
contained verbatim in its section is left *unresolved* by
check-resolved-issues.  Here the excerpt `"alpha"` is still present in the
introduction, yet after the operation the issue's resolved flag is `true`
(it was already resolved and the code never clears the flag), so the claim
as stated is false at this input. -/
theorem claim_C7_counterexample :
    pyContains (draftIntro.get_section .introduction) "alpha" = true ∧
    ((check_resolved_issues draftIntro fbStillPresent).issues.map
      (fun i => i.resolved)) = [true] := by
  constructor
  · decide
  · decide

theorem claim_C7_witness :
    ∃ i' : ReviewIssue, (check_resolved_issues draftIntro fbStillPresent).issues[0]? = some i' ∧
      i'.resolved = true := by
  obtain ⟨i', h1, h2, -⟩ :=
    (claim_C7 draftIntro fbStillPresent).2.2.2.2 0
      { severity := .minor,
        location := { sectionName := "introduction", text_excerpt := "alpha" },
        resolved := true } rfl
  exact ⟨i', h1, by rw [h2]; rfl⟩

/-- C10: in check-resolved-issues, an issue with an empty recorded excerpt
is never marked resolved (its flag is unchanged however the draft looks),
while an issue whose section name is not a valid section kind but whose
excerpt is non-empty is always marked resolved, because the unknown section
reads as empty content, which contains no non-empty excerpt. -/
theorem claim_C10 (d : PaperDraft) (fb : ReviewFeedback) (j : Nat) (i : ReviewIssue)
    (hj : fb.issues[j]? = some i) :
    (i.location.text_excerpt = "" →
      ∃ i' : ReviewIssue, (check_resolved_issues d fb).issues[j]? = some i' ∧ i'.resolved = i.resolved) ∧
    (SectionType.fromString? i.location.sectionName = none →
      i.location.text_excerpt ≠ "" →
      ∃ i' : ReviewIssue, (check_resolved_issues d fb).issues[j]? = some i' ∧ i'.resolved = true) := by
  have hmem : (check_resolved_issues d fb).issues[j]? = some (checkIssue d i) := by
    show (fb.issues.map (checkIssue d))[j]? = some (checkIssue d i)
    rw [map_getElem?, hj, Option.map_some']
  constructor
  · intro he
    refine ⟨checkIssue d i, hmem, ?_⟩
    rw [checkIssue_resolved, he, pyContains_empty_needle, Bool.not_true, Bool.or_false]
  · intro hsec he
    refine ⟨checkIssue d i, hmem, ?_⟩
    have hcontent : issueSectionContent d i = "" := by
      rw [issueSectionContent, hsec]
    rw [checkIssue_resolved, hcontent, pyContains_empty_hay _ he, Bool.not_false,
      Bool.or_true]

/-- A feedback with an empty-excerpt issue and an unknown-section issue. -/
def fbEdgeIssues : ReviewFeedback :=
  { issues := [{ location := { sectionName := "introduction", text_excerpt := "" } },
               { location := { sectionName := "nowhere", text_excerpt := "zz" } }] }

theorem claim_C10_witness :
    (∃ i' : ReviewIssue, (check_resolved_issues draftIntro fbEdgeIssues).issues[0]? = some i' ∧
      i'.resolved = false) ∧
    (∃ i' : ReviewIssue, (check_resolved_issues draftIntro fbEdgeIssues).issues[1]? = some i' ∧
      i'.resolved = true) := by
  constructor
  · exact (claim_C10 draftIntro fbEdgeIssues 0
      { location := { sectionName := "introduction", text_excerpt := "" } } rfl).1 rfl
  · exact (claim_C10 draftIntro fbEdgeIssues 1
      { location := { sectionName := "nowhere", text_excerpt := "zz" } } rfl).2 rfl
      (by decide)

/-! ## C4: apply_all_fixes versioning and resolution monotonicity -/

/-- The per-section edit loop never touches the draft version. -/
theorem processGroups_version (eo : EditOracle)
    (gs : List (String × List ReviewIssue)) :
    ∀ d : PaperDraft, (processGroups eo gs d).1.version = d.version := by
  induction gs with
  | nil => intro d; rfl
  | cons g rest ih =>
    intro d
    obtain ⟨s, issues⟩ := g
    rw [processGroups]
    cases SectionType.fromString? s with
    | none => exact ih d
    | some st =>
      dsimp only
      split
      · exact ih d
      · rw [ih]
        rfl

/-- The issue list produced by `_apply_all_fixes`, in closed form. -/
theorem apply_all_fixes_issues (eo : EditOracle) (d : PaperDraft) (fb : ReviewFeedback) :
    (apply_all_fixes eo d fb).issues = fb.issues.map (fun i =>
      if !i.resolved
          && ((apply_all_fixes eo d fb).sections_edited).contains i.location.sectionName then
        { i with resolved := true }
      else i) := rfl

/-- The grouped, severity-sorted worklist processed by `_apply_all_fixes`. -/
theorem apply_all_fixes_sections_edited (eo : EditOracle) (d : PaperDraft)
    (fb : ReviewFeedback) :
    (apply_all_fixes eo d fb).sections_edited =
      (processGroups eo ((issuesBySection fb.issues).map
        (fun g => (g.1, sortIssuesBySeverity g.2))) d).2.1 := rfl

theorem apply_all_fixes_draft_version (eo : EditOracle) (d : PaperDraft)
    (fb : ReviewFeedback) :
    (apply_all_fixes eo d fb).draft.version =
      (processGroups eo ((issuesBySection fb.issues).map
        (fun g => (g.1, sortIssuesBySeverity g.2))) d).1.version + 1 := rfl

/-- Counting under a map that can only turn the counted predicate on. -/
theorem countP_le_countP_map {α : Type} (p : α → Bool) (f : α → α) (l : List α)
    (h : ∀ a, p a = true → p (f a) = true) :
    l.countP p ≤ (l.map f).countP p := by
  induction l with
  | nil => simp
  | cons a l ih =>
    rw [List.map_cons]
    cases ha : p a
    · rw [List.countP_cons_of_neg p l (by simp [ha])]
      cases hfa : p (f a)
      · rw [List.countP_cons_of_neg p (List.map f l) (by simp [hfa])]
        exact ih
      · rw [List.countP_cons_of_pos p (List.map f l) hfa]
        omega
    · rw [List.countP_cons_of_pos p l ha, List.countP_cons_of_pos p (List.map f l) (h a ha)]
      omega

/-- C4: every `apply_all_fixes` call increments the draft version by exactly
one, no matter how many sections were rewritten (including zero), never
flips an issue's resolved flag from true back to false, and never decreases
the count of resolved issues. -/
theorem claim_C4 (eo : EditOracle) (d : PaperDraft) (fb : ReviewFeedback) :
    (apply_all_fixes eo d fb).draft.version = d.version + 1 ∧
    (∀ (j : Nat) (i : ReviewIssue), fb.issues[j]? = some i → i.resolved = true →
      ∃ i' : ReviewIssue, (apply_all_fixes eo d fb).issues[j]? = some i' ∧
        i'.resolved = true) ∧
    fb.issues.countP (fun i => i.resolved) ≤
      (apply_all_fixes eo d fb).issues.countP (fun i => i.resolved) := by
  refine ⟨?_, ?_, ?_⟩
  · rw [apply_all_fixes_draft_version, processGroups_version]
  · intro j i hj hres
    rw [apply_all_fixes_issues, map_getElem?, hj, Option.map_some']
    refine ⟨_, rfl, ?_⟩
    rw [hres, if_neg (by simp)]
    exact hres
  · rw [apply_all_fixes_issues]
    refine countP_le_countP_map _ _ _ fun i hi => ?_
    rw [hi, if_neg (by simp)]
    exact hi

/-- A feedback with one already-resolved issue and one unresolved issue. -/
def fbMixed : ReviewFeedback :=
  { issues := [{ severity := .major,
                 location := { sectionName := "introduction", text_excerpt := "beta" },
                 resolved := true },
               { severity := .minor,
                 location := { sectionName := "introduction", text_excerpt := "alpha" } }] }

theorem claim_C4_witness :
    (apply_all_fixes eoFix draftIntro fbMixed).draft.version = draftIntro.version + 1 ∧
    ∃ i' : ReviewIssue, (apply_all_fixes eoFix draftIntro fbMixed).issues[0]? = some i' ∧
      i'.resolved = true := by
  refine ⟨(claim_C4 eoFix draftIntro fbMixed).1, ?_⟩
  exact (claim_C4 eoFix draftIntro fbMixed).2.1 0
    { severity := .major,
      location := { sectionName := "introduction", text_excerpt := "beta" },
      resolved := true } rfl rfl

/-! ## C6: severity-first stable ordering of each section group -/

instance : IsTotal ReviewIssue (fun a b => severityKey a ≤ severityKey b) :=
  ⟨fun x y => Nat.le_total (severityKey x) (severityKey y)⟩

instance : IsTrans ReviewIssue (fun a b => severityKey a ≤ severityKey b) :=
  ⟨fun _ _ _ => Nat.le_trans⟩

/-- Inserting an element into a list moves it past exactly the elements with
a strictly smaller key, so each key class keeps its order. -/
theorem orderedInsert_filter_key {α : Type} (f : α → Nat) (k : Nat) (a : α)
    (l : List α) :
    (List.orderedInsert (fun x y => f x ≤ f y) a l).filter (fun x => f x == k) =
      if f a == k then a :: l.filter (fun x => f x == k)
      else l.filter (fun x => f x == k) := by
  induction l with
  | nil =>
    cases h : (f a == k) <;> simp [List.orderedInsert, h]
  | cons b l ih =>
    rw [List.orderedInsert]
    by_cases hab : f a ≤ f b
    · rw [if_pos hab]
      cases h : (f a == k) <;> simp [List.filter_cons, h]
    · rw [if_neg hab]
      rw [List.filter_cons, List.filter_cons, ih]
      by_cases hbk : (f b == k) = true
      · have hfb : f b = k := beq_iff_eq.mp hbk
        cases h : (f a == k)
        · simp [h, hbk]
        · have hfa : f a = k := beq_iff_eq.mp h
          omega
      · have hbk' : (f b == k) = false := Bool.eq_false_iff.mpr hbk
        cases h : (f a == k) <;> simp [h, hbk']

/-- Stability of the severity sort: the elements of each severity-key class
appear in the output in their original relative order. -/
theorem sortIssues_filter_key (k : Nat) (l : List ReviewIssue) :
    (sortIssuesBySeverity l).filter (fun i => severityKey i == k) =
      l.filter (fun i => severityKey i == k) := by
  unfold sortIssuesBySeverity
  induction l with
  | nil => rfl
  | cons a l ih =>
    rw [List.insertionSort, orderedInsert_filter_key severityKey k a, ih,
      List.filter_cons]

def exMinor1 : ReviewIssue :=
  { severity := .minor, description := "m1", location := { sectionName := "introduction" } }

def exCritical : ReviewIssue :=
  { severity := .critical, description := "c1", location := { sectionName := "introduction" } }

def exMajor : ReviewIssue :=
  { severity := .major, description := "j1", location := { sectionName := "introduction" } }

def exMinor2 : ReviewIssue :=
  { severity := .minor, description := "m2", location := { sectionName := "introduction" } }

/-- C6: within each section group, `apply_all_fixes` presents the issues to
the rewrite step sorted severity-first (the sort key is 0 for critical, 1
for major, 2 for minor), as a permutation of the group with a stable
tie-break: each severity class keeps its original relative order.  In
particular severities `[minor, critical, major, minor]` are presented as
`[critical, major, minor, minor]` with the two minor issues in their
original order. -/
theorem claim_C6 (l : List ReviewIssue) :
    List.Sorted (fun a b => severityKey a ≤ severityKey b) (sortIssuesBySeverity l) ∧
    List.Perm (sortIssuesBySeverity l) l ∧
    (∀ k : Nat, (sortIssuesBySeverity l).filter (fun i => severityKey i == k) =
      l.filter (fun i => severityKey i == k)) ∧
    sortIssuesBySeverity [exMinor1, exCritical, exMajor, exMinor2] =
      [exCritical, exMajor, exMinor1, exMinor2] :=
  ⟨List.sorted_insertionSort _ l, List.perm_insertionSort _ l,
    fun k => sortIssues_filter_key k l, by decide⟩

/-! ## C9: totality and defaults of the section-review response parsing -/

/-- A line that (after stripping) starts with one of the five field markers. -/
def isMarkerLine (rawLine : String) : Bool :=
  pyStartsWith (pyStrip rawLine) "ISSUE:" ||
  pyStartsWith (pyStrip rawLine) "SEVERITY:" ||
  pyStartsWith (pyStrip rawLine) "LOCATION:" ||
  pyStartsWith (pyStrip rawLine) "DESCRIPTION:" ||
  pyStartsWith (pyStrip rawLine) "SUGGESTION:"

/-- The issue categories recognized by `_create_issue`'s `category_map`. -/
def categoryRecognized (s : String) : Bool :=
  s == "MISSING_CITATION" || s == "INCONSISTENCY" || s == "VAGUE_CLAIM" ||
  s == "FORMAT_ERROR" || s == "STYLE_ISSUE" || s == "GRAMMAR_ERROR" ||
  s == "LOGIC_ERROR" || s == "INCOMPLETE_ARGUMENT"

/-- The severities recognized by `_create_issue`'s `severity_map`. -/
def severityRecognized (s : String) : Bool :=
  s == "CRITICAL" || s == "MAJOR" || s == "MINOR"

/-- Every issue the scanner emits carries the reviewed section as location,
an empty paragraph index and an unresolved flag. -/
theorem scanIssueLines_mem (st : SectionType) :
    ∀ (lines : List String) (cur : CurIssue) (i : ReviewIssue),
      i ∈ scanIssueLines st lines cur →
      i.location.sectionName = st.value ∧ i.resolved = false ∧
        i.location.paragraph = 0 := by
  intro lines
  induction lines with
  | nil =>
    intro cur i hi
    rw [scanIssueLines] at hi
    split at hi
    · cases hi
    · rw [List.mem_singleton] at hi
      subst hi
      exact ⟨rfl, rfl, rfl⟩
  | cons line rest ih =>
    intro cur i hi
    rw [scanIssueLines] at hi
    split at hi
    · rcases List.mem_append.mp hi with h | h
      · split at h
        · cases h
        · rw [List.mem_singleton] at h
          subst h
          exact ⟨rfl, rfl, rfl⟩
      · exact ih _ i h
    · repeat' split at hi
      all_goals exact ih _ i hi

/-- A run of the scanner over marker-free lines leaves the current block
untouched and only flushes it at the end. -/
theorem scanIssueLines_no_marker (st : SectionType) :
    ∀ (lines : List String), (∀ l ∈ lines, isMarkerLine l = false) →
      ∀ cur, scanIssueLines st lines cur =
        if cur.isEmpty then [] else [createIssue cur st] := by
  intro lines
  induction lines with
  | nil => intro _ cur; rw [scanIssueLines]
  | cons line rest ih =>
    intro h cur
    have h0 := h line (List.mem_cons_self line rest)
    simp only [isMarkerLine, Bool.or_eq_false_iff, and_assoc] at h0
    obtain ⟨h1, h2, h3, h4, h5⟩ := h0
    rw [scanIssueLines, if_neg (by simp [h1]), if_neg (by simp [h2]),
      if_neg (by simp [h3]), if_neg (by simp [h4]), if_neg (by simp [h5])]
    exact ih (fun l hl => h l (List.mem_cons_of_mem line hl)) cur

/-- C9: parsing a reviewer response into issues is total: a response
containing the `NO_ISSUES` marker, or one with no field-marker line at all,
yields an empty issue list rather than an error; every parsed block yields
a well-formed issue located in the reviewed section, unresolved, with
paragraph 0; an unrecognized or missing category defaults to `vague_claim`
and an unrecognized or missing severity defaults to `minor`. -/
theorem claim_C9 (response : String) (st : SectionType) :
    (pyContains response "NO_ISSUES" = true → reviewSectionIssues response st = []) ∧
    ((∀ l ∈ pySplitLines response, isMarkerLine l = false) →
      reviewSectionIssues response st = []) ∧
    (∀ i ∈ reviewSectionIssues response st,
      i.location.sectionName = st.value ∧ i.resolved = false ∧
        i.location.paragraph = 0) ∧
    (∀ cur : CurIssue, categoryRecognized (cur.category.getD "") = false →
      (createIssue cur st).issue_type = .vague_claim) ∧
    (∀ cur : CurIssue, severityRecognized (cur.severity.getD "MINOR") = false →
      (createIssue cur st).severity = .minor) ∧
    (∀ cur : CurIssue, cur.category = none →
      (createIssue cur st).issue_type = .vague_claim) ∧
    (∀ cur : CurIssue, cur.severity = none →
      (createIssue cur st).severity = .minor) := by
  refine ⟨?_, ?_, ?_, ?_, ?_, ?_, ?_⟩
  · intro h
    rw [reviewSectionIssues, if_pos h]
  · intro h
    rw [reviewSectionIssues]
    split
    · rfl
    · rw [scanIssueLines_no_marker st _ h]
      rfl
  · intro i hi
    rw [reviewSectionIssues] at hi
    split at hi
    · cases hi
    · exact scanIssueLines_mem st _ _ i hi
  · intro cur h
    show categoryMapGet (cur.category.getD "") = .vague_claim
    simp only [categoryRecognized, Bool.or_eq_false_iff, and_assoc] at h
    obtain ⟨g1, g2, g3, g4, g5, g6, g7, g8⟩ := h
    rw [categoryMapGet, if_neg (by simp [g1]), if_neg (by simp [g2]),
      if_neg (by simp [g3]), if_neg (by simp [g4]), if_neg (by simp [g5]),
      if_neg (by simp [g6]), if_neg (by simp [g7]), if_neg (by simp [g8])]
  · intro cur h
    show severityMapGet (cur.severity.getD "MINOR") = .minor
    simp only [severityRecognized, Bool.or_eq_false_iff, and_assoc] at h
    obtain ⟨g1, g2, g3⟩ := h
    rw [severityMapGet, if_neg (by simp [g1]), if_neg (by simp [g2]),
      if_neg (by simp [g3])]
  · intro cur h
    show categoryMapGet (cur.category.getD "") = .vague_claim
    rw [h]
    decide
  · intro cur h
    show severityMapGet (cur.severity.getD "MINOR") = .minor
    rw [h]
    decide

theorem claim_C9_witness :
    reviewSectionIssues "NO_ISSUES: This section meets quality standards." .introduction
      = [] ∧
    reviewSectionIssues "All good here.\nNothing to report." .conclusion = [] :=
  ⟨(claim_C9 "NO_ISSUES: This section meets quality standards." .introduction).1
      (by decide),
   (claim_C9 "All good here.\nNothing to report." .conclusion).2.1 (by decide)⟩

/-! ## C8: unknown sections are skipped without aborting the batch -/

theorem keys_addToGroup_of_mem {gs : List (String × List ReviewIssue)} {s : String}
    (i : ReviewIssue) (h : gs.any (fun g => g.1 == s) = true) :
    (addToGroup gs s i).map Prod.fst = gs.map Prod.fst := by
  unfold addToGroup
  rw [if_pos h, List.map_map]
  refine List.map_congr_left fun g _ => ?_
  show (if (g.1 == s) = true then (g.1, g.2 ++ [i]) else g).1 = g.1
  split <;> rfl

theorem keys_addToGroup_of_not_mem {gs : List (String × List ReviewIssue)} {s : String}
    (i : ReviewIssue) (h : gs.any (fun g => g.1 == s) = false) :
    (addToGroup gs s i).map Prod.fst = gs.map Prod.fst ++ [s] := by
  unfold addToGroup
  rw [if_neg (by simp [h]), List.map_append]
  rfl

theorem not_mem_keys_of_any_false {gs : List (String × List ReviewIssue)} {s : String}
    (h : gs.any (fun g => g.1 == s) = false) : s ∉ gs.map Prod.fst := by
  intro hmem
  obtain ⟨g, hg, hgs⟩ := List.mem_map.mp hmem
  rw [List.any_eq_false] at h
  exact h g hg (by simp [hgs])

theorem keys_addToGroup_nodup {gs : List (String × List ReviewIssue)} {s : String}
    (i : ReviewIssue) (h : ((gs.map Prod.fst).Nodup)) :
    ((addToGroup gs s i).map Prod.fst).Nodup := by
  cases hany : gs.any (fun g => g.1 == s)
  · rw [keys_addToGroup_of_not_mem i hany]
    refine List.Nodup.append h (List.nodup_singleton s) ?_
    intro t ht hts
    rw [List.mem_singleton] at hts
    subst hts
    exact not_mem_keys_of_any_false hany ht
  · rw [keys_addToGroup_of_mem i hany]
    exact h

theorem mem_keys_addToGroup_mono {gs : List (String × List ReviewIssue)}
    {s t : String} (i : ReviewIssue) (h : t ∈ gs.map Prod.fst) :
    t ∈ (addToGroup gs s i).map Prod.fst := by
  cases hany : gs.any (fun g => g.1 == s)
  · rw [keys_addToGroup_of_not_mem i hany]
    exact List.mem_append_left _ h
  · rw [keys_addToGroup_of_mem i hany]
    exact h

theorem mem_keys_addToGroup_self (gs : List (String × List ReviewIssue))
    (s : String) (i : ReviewIssue) : s ∈ (addToGroup gs s i).map Prod.fst := by
  cases hany : gs.any (fun g => g.1 == s)
  · rw [keys_addToGroup_of_not_mem i hany]
    exact List.mem_append_right _ (List.mem_singleton_self s)
  · rw [keys_addToGroup_of_mem i hany]
    obtain ⟨g, hg, hgs⟩ := List.any_eq_true.mp hany
    exact List.mem_map.mpr ⟨g, hg, beq_iff_eq.mp hgs⟩

/-- The dict-build step of `issuesBySection`. -/
theorem issuesBySection_eq (issues : List ReviewIssue) :
    issuesBySection issues = issues.foldl
      (fun gs i => if i.resolved then gs else addToGroup gs i.location.sectionName i)
      [] := rfl

/-- The grouping fold never duplicates a section key. -/
theorem foldl_group_keys_nodup (issues : List ReviewIssue) :
    ∀ gs : List (String × List ReviewIssue), ((gs.map Prod.fst).Nodup) →
      (((issues.foldl
          (fun gs i => if i.resolved then gs else addToGroup gs i.location.sectionName i)
          gs).map Prod.fst).Nodup) := by
  induction issues with
  | nil => intro gs h; exact h
  | cons i issues ih =>
    intro gs h
    rw [List.foldl_cons]
    cases hres : i.resolved
    · rw [if_neg (by simp [hres])]
      exact ih _ (keys_addToGroup_nodup i h)
    · rw [if_pos rfl]
      exact ih _ h

/-- A key present in the accumulator survives the grouping fold. -/
theorem foldl_group_keys_mono (issues : List ReviewIssue) :
    ∀ (gs : List (String × List ReviewIssue)) (t : String), t ∈ gs.map Prod.fst →
      t ∈ ((issues.foldl
          (fun gs i => if i.resolved then gs else addToGroup gs i.location.sectionName i)
          gs).map Prod.fst) := by
  induction issues with
  | nil => intro gs t h; exact h
  | cons i issues ih =>
    intro gs t h
    rw [List.foldl_cons]
    cases hres : i.resolved
    · rw [if_neg (by simp [hres])]
      exact ih _ t (mem_keys_addToGroup_mono i h)
    · rw [if_pos rfl]
      exact ih _ t h

/-- Every unresolved issue's section name becomes a key of the grouping. -/
theorem foldl_group_keys_mem (issues : List ReviewIssue) :
    ∀ (gs : List (String × List ReviewIssue)) (i : ReviewIssue), i ∈ issues →
      i.resolved = false →
      i.location.sectionName ∈ ((issues.foldl
        (fun gs i => if i.resolved then gs else addToGroup gs i.location.sectionName i)
        gs).map Prod.fst) := by
  induction issues with
  | nil => intro gs i h; cases h
  | cons j issues ih =>
    intro gs i h hres
    rw [List.foldl_cons]
    rcases List.mem_cons.mp h with rfl | h
    · rw [hres, if_neg (by simp)]
      exact foldl_group_keys_mono issues _ _ (mem_keys_addToGroup_self gs _ i)
    · cases hjres : j.resolved
      · rw [if_neg (by simp [hjres])]
        exact ih _ i h hres
      · rw [if_pos rfl]
        exact ih _ i h hres

/-- The severity sort inside `apply_all_fixes` does not change the keys. -/
theorem keys_map_sort (gs : List (String × List ReviewIssue)) :
    ((gs.map (fun g => (g.1, sortIssuesBySeverity g.2))).map Prod.fst) =
      gs.map Prod.fst := by
  rw [List.map_map]
  exact List.map_congr_left fun g _ => rfl

/-- Only recognized section names are ever reported as edited. -/
theorem processGroups_sections_valid (eo : EditOracle)
    (gs : List (String × List ReviewIssue)) :
    ∀ (d : PaperDraft) (s : String), s ∈ (processGroups eo gs d).2.1 →
      ∃ st, SectionType.fromString? s = some st := by
  induction gs with
  | nil => intro d s h; cases h
  | cons g rest ih =>
    intro d s h
    obtain ⟨s₀, issues₀⟩ := g
    rw [processGroups] at h
    cases hs₀ : SectionType.fromString? s₀ with
    | none =>
      rw [hs₀] at h
      exact ih d s h
    | some st₀ =>
      rw [hs₀] at h
      dsimp only at h
      split at h
      · exact ih d s h
      · rcases List.mem_cons.mp h with rfl | h
        · exact ⟨st₀, hs₀⟩
        · exact ih _ s h

/-- A group whose key names a valid, non-empty section of the draft is
edited: the keys are distinct, so earlier groups rewrite other sections and
leave this one's content in place. -/
theorem processGroups_mem (eo : EditOracle) (gs : List (String × List ReviewIssue)) :
    ∀ (d : PaperDraft) (s : String) (st : SectionType),
      ((gs.map Prod.fst).Nodup) → s ∈ gs.map Prod.fst →
      SectionType.fromString? s = some st → d.get_section st ≠ "" →
      s ∈ (processGroups eo gs d).2.1 := by
  induction gs with
  | nil => intro d s st _ h; cases h
  | cons g rest ih =>
    intro d s st hnodup hmem hs hcontent
    obtain ⟨s₀, issues₀⟩ := g
    rw [List.map_cons, List.nodup_cons] at hnodup
    rcases List.mem_cons.mp hmem with rfl | hmem
    · rw [processGroups, hs]
      dsimp only
      rw [if_neg hcontent]
      exact List.mem_cons_self _ _
    · have hne : s ≠ s₀ := fun hss => hnodup.1 (hss ▸ hmem)
      rw [processGroups]
      cases hs₀ : SectionType.fromString? s₀ with
      | none => exact ih d s st hnodup.2 hmem hs hcontent
      | some st₀ =>
        dsimp only
        split
        · exact ih d s st hnodup.2 hmem hs hcontent
        · have hstne : ¬st = st₀ := fun hst => hne (fromString?_inj hs (hst ▸ hs₀))
          refine List.mem_cons_of_mem _ (ih _ s st hnodup.2 hmem hs ?_)
          rw [get_section_set_section_ne _ _ hstne]
          exact hcontent

/-- C8: issues whose location names an unknown section (such as the
synthetic `cross-section` location of the consistency check) are skipped
without aborting the batch: the call still succeeds, the version still
increments, skipped issues are returned unchanged, and every unresolved
issue in a recognized, non-empty section is still processed (its group is
rewritten and it is marked resolved). -/
theorem claim_C8 (eo : EditOracle) (d : PaperDraft) (fb : ReviewFeedback) :
    (apply_all_fixes eo d fb).success = true ∧
    (apply_all_fixes eo d fb).draft.version = d.version + 1 ∧
    (∀ (j : Nat) (i : ReviewIssue), fb.issues[j]? = some i →
      SectionType.fromString? i.location.sectionName = none →
      (apply_all_fixes eo d fb).issues[j]? = some i) ∧
    (∀ (j : Nat) (i : ReviewIssue) (st : SectionType), fb.issues[j]? = some i →
      i.resolved = false →
      SectionType.fromString? i.location.sectionName = some st →
      d.get_section st ≠ "" →
      ∃ i' : ReviewIssue, (apply_all_fixes eo d fb).issues[j]? = some i' ∧
        i'.resolved = true) := by
  refine ⟨rfl, ?_, ?_, ?_⟩
  · rw [apply_all_fixes_draft_version, processGroups_version]
  · intro j i hj hnone
    rw [apply_all_fixes_issues, map_getElem?, hj, Option.map_some']
    have hcon : ((apply_all_fixes eo d fb).sections_edited).contains
        i.location.sectionName = false := by
      cases hc : ((apply_all_fixes eo d fb).sections_edited).contains
          i.location.sectionName
      · rfl
      · obtain ⟨st, hst⟩ := processGroups_sections_valid eo _ d i.location.sectionName
          (by rw [← apply_all_fixes_sections_edited]; exact List.elem_iff.mp hc)
        rw [hst] at hnone
        cases hnone
    rw [hcon, Bool.and_false, if_neg (by simp)]
  · intro j i st hj hres hst hcontent
    have himem : i ∈ fb.issues := List.mem_iff_getElem?.mpr ⟨j, hj⟩
    have hkey : i.location.sectionName ∈ ((issuesBySection fb.issues).map
        (fun g => (g.1, sortIssuesBySeverity g.2))).map Prod.fst := by
      rw [keys_map_sort, issuesBySection_eq]
      exact foldl_group_keys_mem fb.issues [] i himem hres
    have hnodup : ((((issuesBySection fb.issues).map
        (fun g => (g.1, sortIssuesBySeverity g.2))).map Prod.fst).Nodup) := by
      rw [keys_map_sort, issuesBySection_eq]
      exact foldl_group_keys_nodup fb.issues [] (List.nodup_nil)
    have hedited : i.location.sectionName ∈ (apply_all_fixes eo d fb).sections_edited := by
      rw [apply_all_fixes_sections_edited]
      exact processGroups_mem eo _ d i.location.sectionName st hnodup hkey hst hcontent
    rw [apply_all_fixes_issues, map_getElem?, hj, Option.map_some']
    refine ⟨_, rfl, ?_⟩
    rw [hres, Bool.not_false, Bool.true_and, if_pos (List.elem_iff.mpr hedited)]

/-- A feedback with one cross-section issue (unknown section kind) and one
introduction issue. -/
def fbCross : ReviewFeedback :=
  { issues := [{ issue_type := .inconsistency, severity := .major,
                 location := { sectionName := "cross-section" } },
               { severity := .minor,
                 location := { sectionName := "introduction", text_excerpt := "alpha" } }] }

theorem claim_C8_witness :
    (apply_all_fixes eoFix draftIntro fbCross).success = true ∧
    (apply_all_fixes eoFix draftIntro fbCross).issues[0]? =
      some { issue_type := .inconsistency, severity := .major,
             location := { sectionName := "cross-section" } } ∧
    ∃ i' : ReviewIssue, (apply_all_fixes eoFix draftIntro fbCross).issues[1]? = some i' ∧
      i'.resolved = true := by
  refine ⟨(claim_C8 eoFix draftIntro fbCross).1, ?_, ?_⟩
  · exact (claim_C8 eoFix draftIntro fbCross).2.2.1 0
      { issue_type := .inconsistency, severity := .major,
        location := { sectionName := "cross-section" } } rfl rfl
  · exact (claim_C8 eoFix draftIntro fbCross).2.2.2 1
      { severity := .minor,
        location := { sectionName := "introduction", text_excerpt := "alpha" } }
      .introduction rfl rfl rfl (by decide)

/-! ## C2: the review-edit loop controller -/

/-- The review cycle numbers of a loop run are consecutive, starting at the
initial cycle, with at most one review per unit of fuel. -/
theorem loopAux_cycles (ro : ReviewOracle) (eo : EditOracle) (minC : Nat) :
    ∀ (fuel start : Nat) (d : PaperDraft) (fb0 : Option ReviewFeedback),
      ∃ k, k ≤ fuel ∧
        ((loopAux ro eo minC fuel start d fb0).2.2.filterMap reviewCycleOf) =
          List.range' start k := by
  intro fuel
  induction fuel with
  | zero => intro start d fb0; exact ⟨0, Nat.le_refl 0, rfl⟩
  | succ n ih =>
    intro start d fb0
    simp only [loopAux, review_success, apply_all_fixes_success, eq_self_iff_true,
      if_true]
    split
    · refine ⟨1, Nat.succ_le_succ (Nat.zero_le n), ?_⟩
      simp [reviewCycleOf, List.range']
    · obtain ⟨k, hk, hek⟩ := ih (start + 1)
        (apply_all_fixes eo (review ro d start).draft (review ro d start).feedback).draft
        (some (editedFeedback (review ro d start).feedback
          (apply_all_fixes eo (review ro d start).draft (review ro d start).feedback)))
      refine ⟨k + 1, Nat.succ_le_succ hk, ?_⟩
      simp only [List.filterMap_cons, reviewCycleOf]
      rw [hek]
      rfl

/-- If a review comes back approved at a cycle at or past the minimum, the
loop stops immediately: that review is the final event, so no edit pass
runs at or after that cycle. -/
theorem loopAux_stop (ro : ReviewOracle) (eo : EditOracle) (minC : Nat) :
    ∀ (fuel start : Nat) (d : PaperDraft) (fb0 : Option ReviewFeedback)
      (idx c : Nat) (f : ReviewFeedback),
      (loopAux ro eo minC fuel start d fb0).2.2[idx]? = some (.review c f) →
      f.approved = true → minC ≤ c →
      idx + 1 = (loopAux ro eo minC fuel start d fb0).2.2.length := by
  intro fuel
  induction fuel with
  | zero =>
    intro start d fb0 idx c f h _ _
    simp [loopAux] at h
  | succ n ih =>
    intro start d fb0 idx c f h happ hminc
    simp only [loopAux, review_success, apply_all_fixes_success, eq_self_iff_true,
      if_true] at h ⊢
    by_cases hc : ((review ro d start).feedback.approved && decide (minC ≤ start)) = true
    · rw [if_pos hc] at h ⊢
      cases idx with
      | zero => rfl
      | succ m => simp at h
    · rw [if_neg hc] at h ⊢
      cases idx with
      | zero =>
        simp only [List.getElem?_cons_zero, Option.some.injEq] at h
        obtain ⟨rfl, rfl⟩ := LoopEvent.review.inj h.symm
        rw [happ, decide_eq_true hminc] at hc
        exact absurd rfl hc
      | succ m =>
        cases m with
        | zero => simp at h
        | succ p =>
          have hp := ih (start + 1)
            (apply_all_fixes eo (review ro d start).draft (review ro d start).feedback).draft
            (some (editedFeedback (review ro d start).feedback
          (apply_all_fixes eo (review ro d start).draft (review ro d start).feedback)))
            p c f (by simpa using h) happ hminc
          simp only [List.length_cons]
          omega

/-- When no review of the run is approved at a cycle at or past the
minimum, the loop consumes all its fuel: two events per cycle, and (for
positive fuel) it ends with the edit event of its last cycle, whose draft
and feedback are exactly the loop's result. -/
theorem loopAux_exhaust (ro : ReviewOracle) (eo : EditOracle) (minC : Nat) :
    ∀ (fuel start : Nat) (d : PaperDraft) (fb0 : Option ReviewFeedback),
      (∀ (c : Nat) (f : ReviewFeedback),
        (LoopEvent.review c f) ∈ (loopAux ro eo minC fuel start d fb0).2.2 →
        ¬(f.approved = true ∧ minC ≤ c)) →
      (loopAux ro eo minC fuel start d fb0).2.2.length = 2 * fuel ∧
      (fuel = 0 → loopAux ro eo minC fuel start d fb0 = (d, fb0, [])) ∧
      (∀ m, fuel = m + 1 →
        ∃ (f1 f2 : ReviewFeedback) (pre : List LoopEvent),
          (loopAux ro eo minC fuel start d fb0).2.2 =
            pre ++ [.edit (start + m) (loopAux ro eo minC fuel start d fb0).1 f2] ∧
          (loopAux ro eo minC fuel start d fb0).2.1 = some f2 ∧
          f2.approved = f1.approved ∧
          (LoopEvent.review (start + m) f1) ∈ (loopAux ro eo minC fuel start d fb0).2.2) := by
  intro fuel
  induction fuel with
  | zero =>
    intro start d fb0 _
    refine ⟨rfl, fun _ => rfl, fun m hm => ?_⟩
    cases hm
  | succ n ih =>
    intro start d fb0 hno
    simp only [loopAux, review_success, apply_all_fixes_success, eq_self_iff_true,
      if_true] at hno ⊢
    by_cases hc : ((review ro d start).feedback.approved && decide (minC ≤ start)) = true
    · exfalso
      rw [if_pos hc] at hno
      have hmem := hno start (review ro d start).feedback (List.mem_singleton_self _)
      rw [Bool.and_eq_true, decide_eq_true_eq] at hc
      exact hmem ⟨hc.1, hc.2⟩
    · rw [if_neg hc] at hno ⊢
      have hno' := fun c f hmem => hno c f
        (List.mem_cons_of_mem _ (List.mem_cons_of_mem _ hmem))
      obtain ⟨hlen, hzero, hsucc⟩ := ih (start + 1)
        (apply_all_fixes eo (review ro d start).draft (review ro d start).feedback).draft
        (some (editedFeedback (review ro d start).feedback
          (apply_all_fixes eo (review ro d start).draft (review ro d start).feedback)))
        hno'
      refine ⟨?_, fun h => absurd h (Nat.succ_ne_zero n), ?_⟩
      · simp only [List.length_cons, hlen]
        omega
      intro m hm
      cases n with
      | zero =>
        obtain rfl : m = 0 := by omega
        rw [hzero rfl]
        refine ⟨(review ro d start).feedback,
          (editedFeedback (review ro d start).feedback
            (apply_all_fixes eo (review ro d start).draft (review ro d start).feedback)),
          [.review start (review ro d start).feedback], ?_, rfl, rfl, ?_⟩
        · simp
        · exact List.mem_cons_self _ _
      | succ p =>
        obtain rfl : m = p + 1 := by omega
        obtain ⟨f1, f2, pre, hev, hfb, happ, hmem⟩ := hsucc p rfl
        refine ⟨f1, f2,
          .review start (review ro d start).feedback ::
            .edit start (apply_all_fixes eo (review ro d start).draft
              (review ro d start).feedback).draft
              (editedFeedback (review ro d start).feedback
            (apply_all_fixes eo (review ro d start).draft (review ro d start).feedback)) :: pre, ?_, hfb, happ, ?_⟩
        · have harith : start + (p + 1) = start + 1 + p := by omega
          rw [harith, List.cons_append, List.cons_append, ← hev]
        · exact List.mem_cons_of_mem _ (List.mem_cons_of_mem _ (by
            have : start + (p + 1) = start + 1 + p := by omega
            rw [this]
            exact hmem))

theorem reviewEditLoop_events (ro : ReviewOracle) (eo : EditOracle)
    (minC maxC : Nat) (d : PaperDraft) :
    (reviewEditLoop ro eo minC maxC d).events =
      (loopAux ro eo minC maxC 1 d none).2.2 := rfl

theorem reviewEditLoop_draft (ro : ReviewOracle) (eo : EditOracle)
    (minC maxC : Nat) (d : PaperDraft) :
    (reviewEditLoop ro eo minC maxC d).draft =
      (loopAux ro eo minC maxC 1 d none).1 := rfl

theorem reviewEditLoop_feedback (ro : ReviewOracle) (eo : EditOracle)
    (minC maxC : Nat) (d : PaperDraft) :
    (reviewEditLoop ro eo minC maxC d).feedback =
      (loopAux ro eo minC maxC 1 d none).2.1 := rfl

/-- C2 (amended): in every run of the review-edit loop controller,
`Reviewer.review` is invoked at most `maxCycles` times, with cycle numbers
1, 2, ... in increasing order; if the review at cycle `c` returns an
approved feedback and `c >= minCycles`, the loop stops immediately — that
review is the last event of the run, so no `Editor.apply_all_fixes` call
runs at or after that cycle; and, provided `minCycles <= maxCycles` (as in
the default configuration 2 <= 5), if all `maxCycles` cycles complete
without such an approval the loop exits after `maxCycles` full
review+edit cycles with the most recent draft and feedback retained,
reporting a warning rather than an error.  (When `minCycles > maxCycles`
the warning part fails on the code, see the counterexample.) -/
theorem claim_C2 (ro : ReviewOracle) (eo : EditOracle) (minC maxC : Nat)
    (d : PaperDraft) :
    (∃ k, k ≤ maxC ∧
      ((reviewEditLoop ro eo minC maxC d).events.filterMap reviewCycleOf) =
        List.range' 1 k) ∧
    (∀ (idx c : Nat) (f : ReviewFeedback),
      (reviewEditLoop ro eo minC maxC d).events[idx]? = some (.review c f) →
      f.approved = true → minC ≤ c →
      idx + 1 = (reviewEditLoop ro eo minC maxC d).events.length) ∧
    (minC ≤ maxC →
      (∀ (c : Nat) (f : ReviewFeedback),
        (LoopEvent.review c f) ∈ (reviewEditLoop ro eo minC maxC d).events →
        ¬(f.approved = true ∧ minC ≤ c)) →
      (reviewEditLoop ro eo minC maxC d).events.length = 2 * maxC ∧
      (reviewEditLoop ro eo minC maxC d).warned = true ∧
      (∀ m, maxC = m + 1 → ∃ (f2 : ReviewFeedback) (pre : List LoopEvent),
        (reviewEditLoop ro eo minC maxC d).events =
          pre ++ [.edit maxC (reviewEditLoop ro eo minC maxC d).draft f2] ∧
        (reviewEditLoop ro eo minC maxC d).feedback = some f2)) := by
  refine ⟨?_, ?_, ?_⟩
  · rw [reviewEditLoop_events]
    exact loopAux_cycles ro eo minC maxC 1 d none
  · rw [reviewEditLoop_events]
    exact loopAux_stop ro eo minC maxC 1 d none
  · intro hmm hno
    rw [reviewEditLoop_events] at hno ⊢
    obtain ⟨hlen, hzero, hsucc⟩ := loopAux_exhaust ro eo minC maxC 1 d none hno
    refine ⟨hlen, ?_, ?_⟩
    · cases maxC with
      | zero =>
        show (match (loopAux ro eo minC 0 1 d none).2.1 with
          | none => true
          | some fb => !fb.approved) = true
        rw [hzero rfl]
      | succ m =>
        obtain ⟨f1, f2, pre, hev, hfb, happ, hmem⟩ := hsucc m rfl
        have hnapp := hno (1 + m) f1 hmem
        have hf1 : f1.approved = false := by
          cases hf : f1.approved
          · rfl
          · exact absurd ⟨hf, by omega⟩ hnapp
        show (match (loopAux ro eo minC (m + 1) 1 d none).2.1 with
          | none => true
          | some fb => !fb.approved) = true
        rw [hfb]
        show (!f2.approved) = true
        rw [happ, hf1]
        rfl
    · intro m hm
      subst hm
      obtain ⟨f1, f2, pre, hev, hfb, happ, hmem⟩ := hsucc m rfl
      have harith : 1 + m = m + 1 := by omega
      rw [harith] at hev
      refine ⟨f2, pre, ?_, hfb⟩
      rw [reviewEditLoop_draft]
      exact hev

/-- C2 counterexample: run the loop with `min_cycles = 3` and
`max_cycles = 2` (both are plain config values with no validation) against
a collaborator that reports no issues.  Cycle 2's review is approved but
`2 < 3`, so the loop completes all `max_cycles` cycles without an approval
at a cycle `>= min_cycles` — yet `warned = false`, because the trailing
check only tests `feedback.approved`: no warning is reported, contradicting
the claim's exhaustion clause. -/
theorem claim_C2_counterexample :
    (reviewEditLoop oracleNoIssues eoFix 3 2 draftIntro).events.filterMap reviewCycleOf
      = [1, 2] ∧
    ((reviewEditLoop oracleNoIssues eoFix 3 2 draftIntro).events.all fun ev =>
      match ev with
      | .review c f => !(f.approved && decide (3 ≤ c))
      | .edit _ _ _ => true) = true ∧
    (reviewEditLoop oracleNoIssues eoFix 3 2 draftIntro).warned = false := by
  exact ⟨by decide, by decide, by decide⟩

theorem claim_C2_witness :
    (reviewEditLoop oracleIncons eoFix 1 1 draftIntro).events.length = 2 * 1 ∧
    (reviewEditLoop oracleIncons eoFix 1 1 draftIntro).warned = true := by
  have hev : (reviewEditLoop oracleIncons eoFix 1 1 draftIntro).events =
      [.review 1 (review oracleIncons draftIntro 1).feedback,
       .edit 1 (apply_all_fixes eoFix (review oracleIncons draftIntro 1).draft
          (review oracleIncons draftIntro 1).feedback).draft
         (editedFeedback (review oracleIncons draftIntro 1).feedback
           (apply_all_fixes eoFix (review oracleIncons draftIntro 1).draft
             (review oracleIncons draftIntro 1).feedback))] := rfl
  have hno : ∀ (c : Nat) (f : ReviewFeedback),
      (LoopEvent.review c f) ∈ (reviewEditLoop oracleIncons eoFix 1 1 draftIntro).events →
      ¬(f.approved = true ∧ 1 ≤ c) := by
    intro c f hmem
    rw [hev] at hmem
    rcases List.mem_cons.mp hmem with heq | hmem2
    · obtain ⟨rfl, rfl⟩ := LoopEvent.review.inj heq
      rintro ⟨ha, -⟩
      have hfalse : (review oracleIncons draftIntro 1).feedback.approved = false := by
        decide
      rw [hfalse] at ha
      cases ha
    · rcases List.mem_cons.mp hmem2 with heq2 | h0
      · cases heq2
      · cases h0
  have h := (claim_C2 oracleIncons eoFix 1 1 draftIntro).2.2 (Nat.le_refl 1) hno
  exact ⟨h.1, h.2.1⟩

end Academician
